import Mathlib

/-!
A verification development for the specguard step-verification engine.

The definitions below are a shallow embedding of the TypeScript core
(`specguard.ts`: `extractScenarios`, `findStepsInTest`, `verifySteps`;
`utils.ts`: `trim`, `dirname`, `joinPath`; `index.ts`:
`processSpecguardFile`, `main`).  File-system access is made explicit as an
association list from paths to contents; JavaScript regular expressions are
translated into structurally recursive matchers over `List Char`; the
JavaScript string operations used by the code (`split`, `trim`, `slice`,
`lastIndexOf`, `includes`) are translated into executable Lean functions.
Whitespace is modelled as the ASCII whitespace characters.
-/

namespace SpecGuard

/-- A step is an opaque text string (`types.ts`: `type Step = string`). -/
abbrev Step := String

/-- The file system, modelled as an association list from path to contents.
`Bun.file(path).exists()` becomes a lookup. -/
abbrev FS := List (String × String)

/-- `utils.ts` `fileExists`: true when the path is present. -/
def fileExists (fs : FS) (p : String) : Bool :=
  (fs.lookup p).isSome

/-- `utils.ts` `readFile`, defaulting to the empty string when absent
(the code only reads files it has discovered or existence-checked). -/
def readFileD (fs : FS) (p : String) : String :=
  ((fs.lookup p).getD "")

/-- ASCII whitespace, the model of the whitespace class used by JavaScript
`String.prototype.trim` and the regex class `\s`. -/
def isWs (c : Char) : Bool :=
  c = ' ' || c = '\t' || c = '\n' || c = '\r' ||
  c = '\x0b' || c = '\x0c'

/-- Drop trailing characters satisfying `isWs`. -/
def dropTrailingWs (l : List Char) : List Char :=
  ((l.reverse.dropWhile isWs)).reverse

/-- `utils.ts` `trim` (JavaScript `str.trim()`): strip whitespace from both
ends. -/
def trim (s : String) : String :=
  ⟨dropTrailingWs (s.data.dropWhile isWs)⟩

/-- Split a character list at every occurrence of `c`
(JavaScript `str.split(sep)` for a one-character separator). -/
def splitOnCharAux (c : Char) : List Char → List Char → List (List Char)
  | [], acc => [acc.reverse]
  | x :: xs, acc =>
    if x = c then acc.reverse :: splitOnCharAux c xs []
    else splitOnCharAux c xs (x :: acc)

/-- JavaScript `str.split(sep)` for a one-character separator. -/
def splitOnChar (c : Char) (s : String) : List String :=
  (splitOnCharAux c s.data []).map (fun l => (⟨l⟩ : String))

/-- `content.split('\n')`. -/
def splitLines (s : String) : List String :=
  splitOnChar '\n' s

/-- Strip a literal character pattern from the front of the input, returning
the remainder on success. -/
def stripChars : List Char → List Char → Option (List Char)
  | [], l => some l
  | _ :: _, [] => none
  | p :: ps, c :: cs => if c = p then stripChars ps cs else none

/-- Whether `pat` is a literal prefix of `l`. -/
def isPrefixChars (pat l : List Char) : Bool :=
  (stripChars pat l).isSome

/-- JavaScript `str.startsWith(pat)`. -/
def startsWithStr (pat s : String) : Bool :=
  isPrefixChars pat.data s.data

/-- JavaScript `str.endsWith(pat)`. -/
def endsWithStr (pat s : String) : Bool :=
  isPrefixChars pat.data.reverse s.data.reverse

/-- Skip the maximal run of leading whitespace (greedy `\s*`; the literal
that follows each `\s*` in the source regexes never begins with a
whitespace character, so no backtracking into the run can succeed). -/
def dropWs (l : List Char) : List Char :=
  l.dropWhile isWs

/-- The comment-leader alternation `(#|\/\/)` of the step-marker regex. -/
def matchLeader : List Char → Option (List Char)
  | '#' :: rest => some rest
  | '/' :: '/' :: rest => some rest
  | _ => none

/-- Greedy-capture helper for `(.+)"\)`: return the longest (rightmost)
`p` such that the input is `p ++ '"' :: ')' :: suffix`.  A longer split is
preferred because the greedy `.+` backtracks from the right. -/
def lastQuoteSplit : List Char → Option (List Char)
  | [] => none
  | c :: rest =>
    match lastQuoteSplit rest with
    | some p => some (c :: p)
    | none =>
      match c, rest with
      | '"', ')' :: _ => some []
      | _, _ => none

/-- The step-marker regex `/^\s*(#|\/\/)\s*step\("(.+)"\)/` from
`findStepsInTest`, applied to one line; returns the capture `(.+)` of the
first (leftmost-anchored, greedy) match.  The capture requires at least one
character between the quotes. -/
def matchStepLine (line : List Char) : Option (List Char) :=
  match matchLeader (dropWs line) with
  | none => none
  | some afterLeader =>
    match stripChars "step(\"".data (dropWs afterLeader) with
    | none => none
    | some body =>
      match lastQuoteSplit body with
      | none => none
      | some p => if p.isEmpty then none else some p

/-- The heading regex `/^##\s+(.+)/` from `extractScenarios`, returning
the capture.  The greedy `\s+` takes the whole whitespace run unless the
run reaches the end of the line, in which case it backtracks one character
so that `.+` (which also matches whitespace) can succeed. -/
def matchH2 (line : List Char) : Option (List Char) :=
  match line with
  | '#' :: '#' :: c :: rest =>
    if isWs c then
      let t := dropWs (c :: rest)
      if t.isEmpty then
        if rest.isEmpty then none
        else some [(c :: rest).getLast (by simp)]
      else some t
    else none
  | _ => none

/-- The levels regex `/^levels:\s*(.*)/` from `extractScenarios`, returning
the capture (the rest of the line after the greedy `\s*`). -/
def matchLevels (line : List Char) : Option (List Char) :=
  match stripChars "levels:".data line with
  | none => none
  | some rest => some (dropWs rest)

/-- A scenario (`types.ts`): heading name, declared levels, ordered steps. -/
structure Scenario where
  name : String
  levels : List String
  steps : List Step
deriving DecidableEq, Repr

/-- `levelsStr.split(',').map(trim).filter(Boolean)` applied to the trimmed
levels capture (`extractScenarios`, lines 974-978). -/
def parseLevelsCsv (cap : String) : List String :=
  (((splitOnChar ',' (trim cap)).map trim).filter (fun x => x ≠ ""))

/-- The mutable state of the `extractScenarios` line loop. -/
structure ScanState where
  scenarios : List Scenario
  currentScenario : Option Scenario
  inCodeblock : Bool
  currentSteps : List Step
deriving DecidableEq, Repr

/-- The initial state of the `extractScenarios` line loop. -/
def initialScanState : ScanState :=
  { scenarios := [], currentScenario := none, inCodeblock := false, currentSteps := [] }

/-- One iteration of the `extractScenarios` line loop (lines 949-999):
an `## ` heading pushes the current scenario when its collected steps are
non-empty and opens a fresh one; a `levels:` line (only with a scenario
open) replaces the scenario's levels; a ```` ```specguard ```` line opens a
step block and a ```` ``` ```` line closes it; any other non-blank line
inside an open block with a scenario open is appended verbatim. -/
def scanLine (st : ScanState) (line : String) : ScanState :=
  match matchH2 line.data with
  | some cap =>
    let pushed :=
      match st.currentScenario with
      | some sc =>
        if st.currentSteps ≠ [] then st.scenarios ++ [{ sc with steps := st.currentSteps }]
        else st.scenarios
      | none => st.scenarios
    { scenarios := pushed,
      currentScenario := some { name := trim ⟨cap⟩, levels := [], steps := [] },
      inCodeblock := false,
      currentSteps := [] }
  | none =>
    match st.currentScenario, matchLevels line.data with
    | some sc, some cap =>
      { st with currentScenario := some { sc with levels := parseLevelsCsv ⟨cap⟩ } }
    | _, _ =>
      if startsWithStr "```specguard" line then
        { st with inCodeblock := true }
      else if startsWithStr "```" line && st.inCodeblock then
        { st with inCodeblock := false }
      else if st.inCodeblock && st.currentScenario.isSome && trim line ≠ "" then
        { st with currentSteps := st.currentSteps ++ [line] }
      else st

/-- End-of-input flush of `extractScenarios` (lines 1001-1005): the last
open scenario is pushed when its collected steps are non-empty. -/
def flushScan (st : ScanState) : List Scenario :=
  match st.currentScenario with
  | some sc =>
    if st.currentSteps ≠ [] then st.scenarios ++ [{ sc with steps := st.currentSteps }]
    else st.scenarios
  | none => st.scenarios

/-- `extractScenarios` (specguard.ts lines 940-1008), as a function of the
spec file's text. -/
def extractScenarios (content : String) : List Scenario :=
  flushScan ((splitLines content).foldl scanLine initialScanState)

/-- The line scan of `findStepsInTest` (lines 1074-1087), as a function of
the implementation file's text: every line matching the step-marker regex
contributes its quoted capture, in order. -/
def findSteps (content : String) : List Step :=
  (splitLines content).filterMap
    (fun l => (matchStepLine l.data).map (fun cap => (⟨cap⟩ : String)))

/-- `findStepsInTest` (lines 1068-1088): the empty list when the file does
not exist, else the flat ordered scan of its text. -/
def findStepsInTest (fs : FS) (filePath : String) : List Step :=
  if fileExists fs filePath then findSteps (readFileD fs filePath) else []

/-- The failure-reason union type of `types.ts`
(`'missing-file' | 'step-mismatch' | 'step-count-mismatch'`). -/
inductive Reason where
  | missingFile
  | stepMismatch
  | stepCountMismatch
deriving DecidableEq, Repr

/-- One entry of `mismatchedSteps` (`types.ts`). -/
structure Mismatch where
  expected : Step
  actual : Step
  index : Nat
deriving DecidableEq, Repr

/-- `StepVerificationResult` of `types.ts`; optional fields become
`Option`, absent on construction meaning `none`. -/
structure StepVerificationResult where
  passed : Bool
  reason : Option Reason := none
  expectedSteps : List Step
  actualSteps : List Step
  missingSteps : Option (List Step) := none
  extraSteps : Option (List Step) := none
  mismatchedSteps : Option (List Mismatch) := none
deriving DecidableEq, Repr

/-- The body of `verifySteps` after the existence check (lines 1145-1208),
as a function of the expected list and the extracted actual list: normalize
both by trimming; on a length disagreement report `step-count-mismatch`
with the positional tails (the first index loop pushes the normalized
expected entries at `i ≥ |actual|`, the second pushes the normalized actual
entries at `|expected| ≤ i < |actual|`); on equal lengths collect one
mismatch entry per unequal index and report `step-mismatch` when any exist,
else pass. -/
def verifyStepsFound (expectedSteps actualSteps : List Step) : StepVerificationResult :=
  let normalizedExpected := expectedSteps.map trim
  let normalizedActual := actualSteps.map trim
  if normalizedExpected.length ≠ normalizedActual.length then
    let missingSteps := (List.range normalizedExpected.length).filterMap
      (fun i => if normalizedActual.length ≤ i then some (normalizedExpected.getD i "") else none)
    let extraSteps := (List.range' normalizedExpected.length
        (normalizedActual.length - normalizedExpected.length)).map
      (fun i => normalizedActual.getD i "")
    { passed := false, reason := some .stepCountMismatch,
      expectedSteps := expectedSteps, actualSteps := actualSteps,
      missingSteps := some missingSteps, extraSteps := some extraSteps }
  else
    let mismatchedSteps := (List.range normalizedExpected.length).filterMap
      (fun i =>
        let e := normalizedExpected.getD i ""
        let a := normalizedActual.getD i ""
        if e ≠ a then some { expected := e, actual := a, index := i } else none)
    if mismatchedSteps.length > 0 then
      { passed := false, reason := some .stepMismatch,
        expectedSteps := expectedSteps, actualSteps := actualSteps,
        mismatchedSteps := some mismatchedSteps }
    else
      { passed := true, expectedSteps := expectedSteps, actualSteps := actualSteps }

/-- `verifySteps` (lines 1131-1209): a missing file short-circuits to
`missing-file` with `missingSteps = expectedSteps` and no actual steps;
otherwise the flat-extracted steps are compared by `verifyStepsFound`. -/
def verifySteps (fs : FS) (testFile : String) (expectedSteps : List Step) :
    StepVerificationResult :=
  if !fileExists fs testFile then
    { passed := false, reason := some .missingFile,
      expectedSteps := expectedSteps, actualSteps := [],
      missingSteps := some expectedSteps }
  else
    verifyStepsFound expectedSteps (findStepsInTest fs testFile)

/-! ### Path utilities (`utils.ts`) and the resolver of `index.ts`. -/

/-- Join a list of strings with `'/'` (JavaScript `parts.join('/')`). -/
def joinSlash : List String → String
  | [] => ""
  | [p] => p
  | p :: rest => p ++ "/" ++ joinSlash rest

/-- Collapse every run of slashes to a single slash
(`.replace(/\/+/g, '/')`). -/
def collapseSlashes : List Char → List Char
  | [] => []
  | [c] => [c]
  | c1 :: c2 :: rest =>
    if c1 = '/' && c2 = '/' then collapseSlashes (c2 :: rest)
    else c1 :: collapseSlashes (c2 :: rest)

/-- `utils.ts` `joinPath`: drop empty parts, join with `'/'`, collapse
duplicate slashes. -/
def joinPath (parts : List String) : String :=
  ⟨collapseSlashes (joinSlash (parts.filter (fun p => p ≠ ""))).data⟩

/-- `utils.ts` `dirname`: split on `'/'`, pop the last component, re-join;
`'.'` when the result is empty. -/
def dirname (p : String) : String :=
  let parts := splitOnChar '/' p
  let joined := joinSlash parts.dropLast
  if joined = "" then "." else joined

/-- `index.ts` `main` (lines 231-234): strip a trailing
`"/" ++ token` from the spec folder's directory
(`.replace(new RegExp(`/${token}$`), '')`, for a token without regex
metacharacters). -/
def stripTokenSuffix (dir token : String) : String :=
  let suf := "/" ++ token
  if endsWithStr suf dir then ⟨dir.data.take (dir.data.length - suf.data.length)⟩
  else dir

/-- `str.lastIndexOf(pat)` as an option: the largest index at which `pat`
occurs as a literal substring. -/
def lastIndexOfChars (pat : List Char) : List Char → Option Nat
  | [] => if pat = [] then some 0 else none
  | c :: rest =>
    match lastIndexOfChars pat rest with
    | some j => some (j + 1)
    | none => if isPrefixChars pat (c :: rest) then some 0 else none

/-- `index.ts` lines 90-95: the portion of the spec file path after the
last `/token/` segment, with a trailing `.md` stripped
(`.replace(/\.md$/, '')`); the empty string when the segment is absent. -/
def relPathNoExt (specguardFile token : String) : String :=
  let pattern := "/" ++ token ++ "/"
  let relPath : String :=
    match lastIndexOfChars pattern.data specguardFile.data with
    | some i => ⟨specguardFile.data.drop (i + pattern.data.length)⟩
    | none => ""
  if endsWithStr ".md" relPath then ⟨relPath.data.take (relPath.data.length - 3)⟩
  else relPath

/-- The fixed candidate-suffix priority list of `index.ts` line 114. -/
def commonExtensions : List String :=
  [".ts", ".test.ts", ".spec.ts", ".js", ".test.js", ".spec.js", ".sh", ".py"]

/-- The extension loop of `index.ts` lines 113-122: `testFile` stays `''`
until the first candidate that exists, then the loop breaks. -/
def tryExtensions (fs : FS) (base : String) : List String → String
  | [] => ""
  | ext :: rest =>
    if fileExists fs (base ++ ext) then base ++ ext
    else tryExtensions fs base rest

/-- `index.ts` lines 113-127: resolve the implementation file for a
candidate base; when no candidate extension exists the synthetic pattern
`base ++ ".*"` is used and the file is reported not found. -/
def resolveTestFile (fs : FS) (base : String) : String × Bool :=
  let testFile := tryExtensions fs base commonExtensions
  if testFile = "" then (base ++ ".*", false) else (testFile, true)

/-- The candidate base of the resolution convention: `baseDir` is the spec
folder's parent (`main`, lines 229-234), the relative key is
`relPathNoExt`, and the base is `joinPath(baseDir, level, relativeKey)`
(`index.ts` line 110). -/
def candidateBase (specguardFile token level : String) : String :=
  let baseDir := stripTokenSuffix (dirname specguardFile) token
  joinPath [baseDir, trim level, relPathNoExt specguardFile token]

/-! ### The orchestrator (`index.ts`). -/

/-- The expected-sequence accumulation of `index.ts` lines 130-135: walk
the scenarios in declaration order, appending the steps of each scenario
whose `levels` include the level. -/
def levelExpectedSteps (scenarios : List Scenario) (level : String) : List Step :=
  scenarios.foldl
    (fun acc s => if s.levels.contains level then acc ++ s.steps else acc) []

/-- JavaScript truthiness of an optional string (`actual ? … : …` in
`index.ts` line 164): present and non-empty. -/
def truthyOpt : Option String → Bool
  | none => false
  | some s => s ≠ ""

/-- The loop body of the per-scenario comparison of `index.ts` lines
158-166: on a difference between the (optionally absent) trimmed entries at
index `i`, mark the result failed with a reason chosen by the truthiness of
the trimmed actual entry. -/
def scBody (e a : List Step) (r : StepVerificationResult) (i : Nat) :
    StepVerificationResult :=
  let expected := (e.get? i).map trim
  let actual := (a.get? i).map trim
  if expected ≠ actual then
    { r with passed := false,
             reason := some (if truthyOpt actual then .stepMismatch else .stepCountMismatch) }
  else r

/-- The per-scenario comparison of `index.ts` lines 150-166: start from a
passing result over the scenario's expected steps and the sliced actual
steps, then run the index loop. -/
def scenarioCompare (e a : List Step) : StepVerificationResult :=
  (List.range e.length).foldl (scBody e a)
    { passed := true, expectedSteps := e, actualSteps := a }

/-- One scenario's breakdown entry (`index.ts` lines 146-173): slice the
flat actual list at the running offset, compare, and override with
`missing-file` when the primary verification reported a missing file. -/
def scenarioVerifyAt (verification : StepVerificationResult) (sc : Scenario)
    (stepIndex : Nat) : StepVerificationResult :=
  let scenarioActualSteps := (verification.actualSteps.drop stepIndex).take sc.steps.length
  let base := scenarioCompare sc.steps scenarioActualSteps
  if verification.reason = some .missingFile then
    { base with passed := false, reason := some .missingFile,
                missingSteps := some sc.steps }
  else base

/-- One per-scenario breakdown entry (`types.ts`). -/
structure ScenarioVerificationResult where
  scenarioName : String
  stepVerification : StepVerificationResult
deriving DecidableEq, Repr

/-- The breakdown loop of `index.ts` lines 141-182: a running offset starts
at 0 and is advanced by the step count of each scenario whose levels
include the level; non-contributing scenarios are skipped. -/
def buildScenarioResultsAux (verification : StepVerificationResult) (level : String) :
    List Scenario → Nat → List ScenarioVerificationResult
  | [], _ => []
  | sc :: rest, stepIndex =>
    if sc.levels.contains level then
      { scenarioName := sc.name,
        stepVerification := scenarioVerifyAt verification sc stepIndex }
        :: buildScenarioResultsAux verification level rest (stepIndex + sc.steps.length)
    else buildScenarioResultsAux verification level rest stepIndex

/-- The per-scenario breakdown for one level (`index.ts` lines 141-182). -/
def buildScenarioResults (scenarios : List Scenario) (level : String)
    (verification : StepVerificationResult) : List ScenarioVerificationResult :=
  buildScenarioResultsAux verification level scenarios 0

/-- `TestFileResult` of `types.ts`: one record per (spec file, level). -/
structure TestFileResult where
  testFile : String
  specFile : String
  level : String
  passed : Bool
  reason : Option Reason
  scenarioResults : List ScenarioVerificationResult
deriving DecidableEq, Repr

/-- The per-level body of `processSpecguardFile` (`index.ts` lines
106-195): resolve the implementation file, build the expected sequence,
verify, and attach the per-scenario breakdown. -/
def processLevel (fs : FS) (specguardFile baseDir relPathNE : String)
    (scenarios : List Scenario) (level : String) : TestFileResult :=
  let levelTrimmed := trim level
  let testFileBase := joinPath [baseDir, levelTrimmed, relPathNE]
  let testFile := (resolveTestFile fs testFileBase).1
  let allStepsForLevel := levelExpectedSteps scenarios levelTrimmed
  let verification := verifySteps fs testFile allStepsForLevel
  { testFile := testFile, specFile := specguardFile, level := levelTrimmed,
    passed := verification.passed, reason := verification.reason,
    scenarioResults := buildScenarioResults scenarios levelTrimmed verification }

/-- The level set of `index.ts` lines 98-103: a JavaScript `Set` of the
trimmed levels of every scenario, in insertion order. -/
def allLevels (scenarios : List Scenario) : List String :=
  scenarios.foldl
    (fun acc s => s.levels.foldl
      (fun acc2 l => if acc2.contains (trim l) then acc2 else acc2 ++ [trim l]) acc)
    []

/-- `processSpecguardFile` (`index.ts` lines 75-198): parse the scenarios,
skip the file (with the only warning of the orchestrator) when there are
none, then produce one result per distinct level. -/
def processSpecguardFile (fs : FS) (specguardFile baseDir token : String) :
    List TestFileResult :=
  let scenarios := extractScenarios (readFileD fs specguardFile)
  if scenarios.isEmpty then []
  else
    (allLevels scenarios).map
      (processLevel fs specguardFile baseDir (relPathNoExt specguardFile token) scenarios)

/-- The condition under which `processSpecguardFile` logs its
`No scenarios defined, skipping` warning (`index.ts` lines 84-87) — the
only warning the orchestrator emits about a spec file. -/
def skipsFileNoScenarios (content : String) : Bool :=
  (extractScenarios content).isEmpty

/-- Whether a path matches the discovery pattern
`**/<token>/*.md` (`index.ts` line 221): the parent directory segment is
the token and the final segment ends in `.md`. -/
def globMatches (token : String) (p : String) : Bool :=
  match (splitOnChar '/' p).reverse with
  | file :: dir :: _ => dir = token && endsWithStr ".md" file
  | _ => false

/-- The discovery of `index.ts` lines 221-225, over the explicit file
system: the paths under the search root matching the pattern, in the fixed
enumeration order of the file-system listing (the model of the directory
traversal of `Glob.scan`, which is a function of the file tree alone). -/
def discoverSpecFiles (fs : FS) (searchDir token : String) : List String :=
  (fs.map Prod.fst).filter
    (fun p => startsWithStr (searchDir ++ "/") p && globMatches token p)

/-- `TestSummary` of `types.ts`. -/
structure TestSummary where
  totalFiles : Nat
  passedFiles : Nat
  failedFiles : Nat
  missingFiles : Nat
  results : List TestFileResult
deriving DecidableEq, Repr

/-- The run of `main` (`index.ts` lines 220-250) over the explicit file
system: discover the spec files, process each in discovery order
(accumulating `allResults`), and fold the results into the summary
counts. -/
def orchestrate (fs : FS) (searchDir token : String) : TestSummary :=
  let allResults :=
    (discoverSpecFiles fs searchDir token).foldl
      (fun acc f => acc ++ processSpecguardFile fs f (stripTokenSuffix (dirname f) token) token)
      []
  { totalFiles := allResults.length,
    passedFiles := (allResults.filter (fun r => r.passed)).length,
    failedFiles := (allResults.filter (fun r => !r.passed)).length,
    missingFiles := (allResults.filter (fun r => r.reason = some .missingFile)).length,
    results := allResults }

/-! ### Helper lemmas. -/

/-- The result of `verifySteps` records its expected-step argument
unchanged in every branch. -/
theorem verifySteps_expectedSteps (fs : FS) (tf : String) (e : List Step) :
    (verifySteps fs tf e).expectedSteps = e := by
  unfold verifySteps verifyStepsFound
  dsimp only
  split
  · rfl
  · split
    · rfl
    · split <;> rfl

/-- Appending a non-empty string on the right yields a non-empty string. -/
theorem append_right_ne_empty (s t : String) (h : t ≠ "") : s ++ t ≠ "" := by
  intro hst
  apply h
  rw [String.ext_iff] at hst ⊢
  rw [String.data_append] at hst
  exact (List.append_eq_nil.mp hst).2

/-- The extension loop returns the first existing candidate, and the empty
string when none exists. -/
theorem tryExtensions_spec (fs : FS) (base : String) :
    ∀ exts : List String, (∀ x ∈ exts, x ≠ "") →
      ((∀ ext, exts.find? (fun e => fileExists fs (base ++ e)) = some ext →
          tryExtensions fs base exts = base ++ ext ∧ base ++ ext ≠ "") ∧
        (exts.find? (fun e => fileExists fs (base ++ e)) = none →
          tryExtensions fs base exts = "")) := by
  intro exts
  induction exts with
  | nil => exact fun _ => ⟨fun _ h => by simp at h, fun _ => rfl⟩
  | cons x xs ih =>
    intro hne
    have ih' := ih (fun y hy => hne y (by simp [hy]))
    cases hx : fileExists fs (base ++ x) with
    | true =>
      refine ⟨fun ext hfind => ?_, fun hfind => ?_⟩
      · rw [List.find?_cons] at hfind
        simp only [hx] at hfind
        obtain rfl : x = ext := by injection hfind
        exact ⟨by simp [tryExtensions, hx],
          append_right_ne_empty _ _ (hne x (by simp))⟩
      · rw [List.find?_cons] at hfind
        simp only [hx] at hfind
        exact (Option.some_ne_none x hfind).elim
    | false =>
      refine ⟨fun ext hfind => ?_, fun hfind => ?_⟩
      · rw [List.find?_cons] at hfind
        simp only [hx] at hfind
        have := ih'.1 ext hfind
        simpa [tryExtensions, hx] using this
      · rw [List.find?_cons] at hfind
        simp only [hx] at hfind
        have := ih'.2 hfind
        simpa [tryExtensions, hx] using this

/-- Every entry of the fixed candidate-suffix list is non-empty. -/
theorem commonExtensions_ne_empty : ∀ x ∈ commonExtensions, x ≠ "" := by
  decide

/-- Trimming the empty string yields the empty string. -/
theorem trim_empty : trim "" = "" := rfl

/-- `getD` with default `""` commutes with mapping `trim`. -/
theorem getD_map_trim (l : List String) (i : Nat) :
    (l.map trim).getD i "" = trim (l.getD i "") := by
  show ((l.map trim).get? i).getD "" = trim ((l.get? i).getD "")
  rw [List.get?_map]
  cases l.get? i with
  | none => exact trim_empty.symm
  | some s => rfl

/-- Reading every position of a list back with `getD` reproduces the
list. -/
theorem map_range_getD {α : Type} (l : List α) (d : α) :
    (List.range l.length).map (fun i => l.getD i d) = l := by
  induction l with
  | nil => simp
  | cons x xs ih =>
    rw [List.length_cons, List.range_succ_eq_map, List.map_cons, List.map_map]
    refine congrArg₂ _ rfl ?_
    calc (List.range xs.length).map ((fun i => (x :: xs).getD i d) ∘ Nat.succ)
        = (List.range xs.length).map (fun i => xs.getD i d) :=
          List.map_congr_left (fun i _ => List.getD_cons_succ)
      _ = xs := ih

/-- Reading the positions `m, m+1, …` of a list back with `getD` yields the
drop at `m`. -/
theorem range'_map_getD {α : Type} (l : List α) (d : α) :
    ∀ m : Nat, (List.range' m (l.length - m)).map (fun i => l.getD i d) = l.drop m := by
  induction l with
  | nil => intro m; simp
  | cons x xs ih =>
    intro m
    cases m with
    | zero =>
      rw [Nat.sub_zero, ← List.range_eq_range', map_range_getD, List.drop_zero]
    | succ m' =>
      rw [List.length_cons, Nat.succ_sub_succ, List.drop_succ_cons]
      have ih' := ih m'
      rw [List.range'_eq_map_range, List.map_map] at ih' ⊢
      refine Eq.trans (List.map_congr_left fun i _ => ?_) ih'
      show (x :: xs).getD (m' + 1 + i) d = xs.getD (m' + i) d
      rw [show m' + 1 + i = (m' + i) + 1 by omega, List.getD_cons_succ]

/-- The guarded index loop collecting `l.getD i d` at every index `i ≥ m`
produces exactly the tail of `l` from position `m`. -/
theorem filterMap_range_tail {α : Type} (l : List α) (d : α) :
    ∀ m : Nat, (List.range l.length).filterMap
        (fun i => if m ≤ i then some (l.getD i d) else none) = l.drop m := by
  induction l with
  | nil => intro m; simp
  | cons x xs ih =>
    intro m
    rw [List.length_cons, List.range_succ_eq_map, List.filterMap_cons, List.filterMap_map]
    cases m with
    | zero =>
      rw [List.drop_zero]
      have h0 : (if (0 : Nat) ≤ 0 then some ((x :: xs).getD 0 d) else none) = some x := by
        rw [if_pos (Nat.le_refl 0)]; rfl
      rw [h0]
      dsimp only
      refine congrArg₂ _ rfl ?_
      have hcongr : ∀ i ∈ List.range xs.length,
          ((fun i => if 0 ≤ i then some ((x :: xs).getD i d) else none) ∘ Nat.succ) i =
            (some ∘ fun i => xs.getD i d) i := by
        intro i _
        show (if 0 ≤ i + 1 then some ((x :: xs).getD (i + 1) d) else none) = some (xs.getD i d)
        rw [if_pos (Nat.zero_le _), List.getD_cons_succ]
      rw [List.filterMap_congr hcongr, List.filterMap_eq_map, map_range_getD]
    | succ m' =>
      rw [List.drop_succ_cons]
      have h0 : (if m' + 1 ≤ 0 then some ((x :: xs).getD 0 d) else none) = none := by
        rw [if_neg (by omega)]
      rw [h0]
      dsimp only
      have hcongr : ∀ i ∈ List.range xs.length,
          ((fun i => if m' + 1 ≤ i then some ((x :: xs).getD i d) else none) ∘ Nat.succ) i =
            (fun i => if m' ≤ i then some (xs.getD i d) else none) i := by
        intro i _
        show (if m' + 1 ≤ i + 1 then some ((x :: xs).getD (i + 1) d) else none) =
          (if m' ≤ i then some (xs.getD i d) else none)
        exact if_congr Nat.succ_le_succ_iff (congrArg _ List.getD_cons_succ) rfl
      rw [List.filterMap_congr hcongr, ih m']

/-- When the file exists, `verifySteps` is the comparison of the expected
steps against the flat-extracted actual steps. -/
theorem verifySteps_of_exists (fs : FS) (path : String) (e : List Step)
    (hex : fileExists fs path = true) :
    verifySteps fs path e = verifyStepsFound e (findStepsInTest fs path) := by
  unfold verifySteps
  rw [hex]
  rfl

/-- The definition's index loop over normalized lists coincides with the
mismatch collection phrased over the raw lists with trimming applied at
each index. -/
theorem mismatch_list_eq (e a : List Step) :
    (List.range (List.map trim e).length).filterMap (fun i =>
        if (List.map trim e).getD i "" ≠ (List.map trim a).getD i "" then
          some ({ expected := (List.map trim e).getD i "",
                  actual := (List.map trim a).getD i "", index := i } : Mismatch)
        else none) =
      (List.range e.length).filterMap (fun i =>
        if trim (e.getD i "") ≠ trim (a.getD i "") then
          some ({ expected := trim (e.getD i ""),
                  actual := trim (a.getD i ""), index := i } : Mismatch)
        else none) := by
  rw [List.length_map]
  exact List.filterMap_congr (fun i _ => by rw [getD_map_trim, getD_map_trim])

/-- Characterization of `verifyStepsFound` on equal-length inputs: the
verdict is decided by the pointwise comparison of trimmed entries, with
one mismatch entry per unequal index. -/
theorem vsf_eq_len (e a : List Step) (h : e.length = a.length) :
    ((verifyStepsFound e a).reason = some Reason.stepMismatch ↔
        ∃ i < e.length, trim (e.getD i "") ≠ trim (a.getD i "")) ∧
      ((verifyStepsFound e a).passed = true ↔
        ∀ i < e.length, trim (e.getD i "") = trim (a.getD i "")) ∧
      ((verifyStepsFound e a).passed = true → (verifyStepsFound e a).reason = none) ∧
      (verifyStepsFound e a).mismatchedSteps.getD [] =
        (List.range e.length).filterMap (fun i =>
          if trim (e.getD i "") ≠ trim (a.getD i "") then
            some ({ expected := trim (e.getD i ""),
                    actual := trim (a.getD i ""), index := i } : Mismatch)
          else none) := by
  have hc : ¬((List.map trim e).length ≠ (List.map trim a).length) := by simp [h]
  unfold verifyStepsFound
  dsimp only
  rw [if_neg hc, mismatch_list_eq]
  set CM := (List.range e.length).filterMap (fun i =>
    if trim (e.getD i "") ≠ trim (a.getD i "") then
      some ({ expected := trim (e.getD i ""),
              actual := trim (a.getD i ""), index := i } : Mismatch)
    else none) with hCM
  have hiff : CM = [] ↔ ∀ i < e.length, trim (e.getD i "") = trim (a.getD i "") := by
    rw [hCM, List.filterMap_eq_nil_iff]
    constructor
    · intro hall i hi
      have hnone := hall i (List.mem_range.mpr hi)
      by_contra hne
      rw [if_pos hne] at hnone
      exact Option.some_ne_none _ hnone
    · intro hall i hi
      exact if_neg (not_not_intro (hall i (List.mem_range.mp hi)))
  by_cases hcm : CM = []
  · rw [if_neg (by simp [hcm])]
    refine ⟨?_, ?_, fun _ => rfl, hcm.symm⟩
    · constructor
      · intro habs; exact absurd habs (by simp)
      · rintro ⟨i, hi, hne⟩; exact absurd (hiff.mp hcm i hi) hne
    · exact ⟨fun _ => hiff.mp hcm, fun _ => rfl⟩
  · rw [if_pos (by simpa [List.length_pos] using hcm)]
    have hex : ∃ i < e.length, trim (e.getD i "") ≠ trim (a.getD i "") := by
      have hnall : ¬ ∀ i < e.length, trim (e.getD i "") = trim (a.getD i "") :=
        fun hall => hcm (hiff.mpr hall)
      push_neg at hnall
      exact hnall
    refine ⟨⟨fun _ => hex, fun _ => rfl⟩, ?_, fun habs => absurd habs (by simp), rfl⟩
    constructor
    · intro habs; exact absurd habs (by simp)
    · intro hall; exact absurd (hiff.mpr hall) hcm

/-- `verifyStepsFound` on unequal-length inputs: a positional tail diff. -/
theorem vsf_count_mismatch (e a : List Step) (h : e.length ≠ a.length) :
    verifyStepsFound e a =
      { passed := false, reason := some .stepCountMismatch,
        expectedSteps := e, actualSteps := a,
        missingSteps := some ((e.map trim).drop a.length),
        extraSteps := some ((a.map trim).drop e.length) } := by
  unfold verifyStepsFound
  dsimp only
  rw [if_pos (by simpa using h), filterMap_range_tail (List.map trim e) "",
    range'_map_getD (List.map trim a) ""]
  simp only [List.length_map]

/-! ### Claim theorems. -/

/-- C1: on expected and actual step lists of equal length `L`,
`verifySteps` reports `step-mismatch` iff some index `i < L` differs after
trimming both entries, collects exactly one `(expected, actual, index)`
entry per unequal index in index order, and passes (with reason absent)
iff every index matches after trimming. -/
theorem c1_equal_length_verdict (fs : FS) (path : String) (e : List Step)
    (hex : fileExists fs path = true)
    (hlen : e.length = (findStepsInTest fs path).length) :
    ((verifySteps fs path e).reason = some Reason.stepMismatch ↔
        ∃ i < e.length,
          trim (e.getD i "") ≠ trim ((findStepsInTest fs path).getD i "")) ∧
      ((verifySteps fs path e).passed = true ↔
        ∀ i < e.length,
          trim (e.getD i "") = trim ((findStepsInTest fs path).getD i "")) ∧
      ((verifySteps fs path e).passed = true → (verifySteps fs path e).reason = none) ∧
      (verifySteps fs path e).mismatchedSteps.getD [] =
        (List.range e.length).filterMap (fun i =>
          if trim (e.getD i "") ≠ trim ((findStepsInTest fs path).getD i "") then
            some ({ expected := trim (e.getD i ""),
                    actual := trim ((findStepsInTest fs path).getD i ""),
                    index := i } : Mismatch)
          else none) := by
  rw [verifySteps_of_exists fs path e hex]
  exact vsf_eq_len e (findStepsInTest fs path) hlen

/-- Witness for C1 on a concrete file with a swapped middle pair: indices 1
and 2 mismatch, index 0 and 3 agree. -/
theorem c1_equal_length_verdict_witness :
    fileExists [("auth.ts", "// step(\"A\")\n// step(\"C\")\n// step(\"B\")\n// step(\"D\")")] "auth.ts" = true ∧
      (verifySteps [("auth.ts", "// step(\"A\")\n// step(\"C\")\n// step(\"B\")\n// step(\"D\")")]
          "auth.ts" ["A", "B", "C", "D"]).reason = some Reason.stepMismatch :=
  ⟨by decide,
    ((c1_equal_length_verdict
        [("auth.ts", "// step(\"A\")\n// step(\"C\")\n// step(\"B\")\n// step(\"D\")")]
        "auth.ts" ["A", "B", "C", "D"] (by decide) (by decide)).1).mpr
      ⟨1, by decide, by decide⟩⟩

/-- C2: on expected and actual step lists of unequal length, `verifySteps`
reports `step-count-mismatch`, with `missingSteps` exactly the (trimmed)
expected entries at indices `≥ len(actual)` and `extraSteps` exactly the
(trimmed) actual entries at indices `≥ len(expected)` — a pure positional
tail diff. -/
theorem c2_count_mismatch_tail_diff (fs : FS) (path : String) (e : List Step)
    (hex : fileExists fs path = true)
    (hlen : e.length ≠ (findStepsInTest fs path).length) :
    verifySteps fs path e =
      { passed := false, reason := some .stepCountMismatch,
        expectedSteps := e, actualSteps := findStepsInTest fs path,
        missingSteps := some ((e.map trim).drop (findStepsInTest fs path).length),
        extraSteps := some (((findStepsInTest fs path).map trim).drop e.length) } := by
  rw [verifySteps_of_exists fs path e hex]
  exact vsf_count_mismatch e (findStepsInTest fs path) hlen

/-- Witness for C2: two expected steps, one actual marker — the missing
list is the expected tail beyond index 0: the trimmed second entry. -/
theorem c2_count_mismatch_tail_diff_witness :
    verifySteps [("t.ts", "// step(\"a\")")] "t.ts" ["x", " y "] =
      { passed := false, reason := some Reason.stepCountMismatch,
        expectedSteps := ["x", " y "], actualSteps := ["a"],
        missingSteps := some ["y"], extraSteps := some [] } :=
  (c2_count_mismatch_tail_diff [("t.ts", "// step(\"a\")")] "t.ts" ["x", " y "]
      (by decide) (by decide)).trans (by decide)

/-- C3: when the implementation file path does not exist, `verifySteps`
returns `passed = false`, reason `missing-file`, `missingSteps` equal to
the entire expected list, and `actualSteps = []`. -/
theorem c3_missing_file (fs : FS) (path : String) (e : List Step)
    (h : fileExists fs path = false) :
    verifySteps fs path e =
      { passed := false, reason := some .missingFile,
        expectedSteps := e, actualSteps := [], missingSteps := some e } := by
  unfold verifySteps
  rw [h]
  rfl

/-- Witness for C3 at a concrete absent path. -/
theorem c3_missing_file_witness :
    fileExists ([] : FS) "impl.ts" = false ∧
      verifySteps ([] : FS) "impl.ts" ["Validate input", "Check user"] =
        { passed := false, reason := some .missingFile,
          expectedSteps := ["Validate input", "Check user"], actualSteps := [],
          missingSteps := some ["Validate input", "Check user"] } :=
  ⟨by decide, c3_missing_file [] "impl.ts" ["Validate input", "Check user"] (by decide)⟩

/-- C4: for every scenario list and processed level, the expected step
sequence handed to the primary `verifySteps` call (and recorded unchanged
in its result) is the concatenation, in scenario declaration order, of the
steps of every scenario whose level list contains that level. -/
theorem c4_expected_concatenation (fs : FS) (tf : String)
    (scenarios : List Scenario) (level : String) :
    levelExpectedSteps scenarios level =
      ((scenarios.filter (fun s => s.levels.contains level)).map Scenario.steps).flatten ∧
    (verifySteps fs tf (levelExpectedSteps scenarios level)).expectedSteps =
      ((scenarios.filter (fun s => s.levels.contains level)).map Scenario.steps).flatten := by
  have key : ∀ (l : List Scenario) (acc : List Step),
      l.foldl (fun acc s => if s.levels.contains level then acc ++ s.steps else acc) acc =
        acc ++ ((l.filter (fun s => s.levels.contains level)).map Scenario.steps).flatten := by
    intro l
    induction l with
    | nil => intro acc; simp
    | cons s rest ih =>
      intro acc
      rw [List.foldl_cons, List.filter_cons]
      by_cases hs : s.levels.contains level = true
      · rw [if_pos hs, if_pos hs, List.map_cons, List.flatten_cons, ih (acc ++ s.steps),
          List.append_assoc]
      · rw [if_neg hs, if_neg hs]
        exact ih acc
  have h1 : levelExpectedSteps scenarios level =
      ((scenarios.filter (fun s => s.levels.contains level)).map Scenario.steps).flatten := by
    unfold levelExpectedSteps
    rw [key scenarios [], List.nil_append]
  exact ⟨h1, by rw [verifySteps_expectedSteps, h1]⟩

/-- C6: path resolution tries each suffix of the fixed priority list in
order and selects the first existing path; when none exists it yields the
synthetic `base ++ ".*"` with `found = false`; and the candidate base for
token `specguard`, level `unit` at `a/specguard/b.md` is `a/unit/b`. -/
theorem c6_path_resolution (fs : FS) (base : String) :
    (∀ ext, commonExtensions.find? (fun e => fileExists fs (base ++ e)) = some ext →
        resolveTestFile fs base = (base ++ ext, true)) ∧
      (commonExtensions.find? (fun e => fileExists fs (base ++ e)) = none →
        resolveTestFile fs base = (base ++ ".*", false)) ∧
      candidateBase "a/specguard/b.md" "specguard" "unit" = "a/unit/b" := by
  have h := tryExtensions_spec fs base commonExtensions commonExtensions_ne_empty
  refine ⟨fun ext hfind => ?_, fun hfind => ?_, by decide⟩
  · obtain ⟨heq, hne⟩ := h.1 ext hfind
    unfold resolveTestFile
    rw [heq]
    simp [hne]
  · unfold resolveTestFile
    rw [h.2 hfind]
    rfl

/-- Witness for C6: a file system containing `b.ts` resolves to it, and the
empty file system yields the synthetic pattern. -/
theorem c6_path_resolution_witness :
    resolveTestFile [("b.ts", "")] "b" = ("b.ts", true) ∧
      resolveTestFile ([] : FS) "b" = ("b.*", false) :=
  ⟨(c6_path_resolution [("b.ts", "")] "b").1 ".ts" (by decide),
    (c6_path_resolution ([] : FS) "b").2.1 (by decide)⟩

/-- Spec-side analysis device for the per-scenario comparison loop: the
reason left in the accumulator after scanning indices `0, …, n-1` is
decided by the last differing index (its assignment overwrites earlier
ones). -/
def lastMismatchClassify (e a : List Step) : Nat → Option Reason
  | 0 => none
  | n + 1 =>
    if (e.get? n).map trim ≠ (a.get? n).map trim then
      some (if truthyOpt ((a.get? n).map trim) then .stepMismatch else .stepCountMismatch)
    else lastMismatchClassify e a n

/-- Characterization of the per-scenario comparison loop after scanning the
first `n` indices: it passes iff all scanned optional trimmed entries
agree, its reason is decided by the last differing index, and the other
fields keep their initial values. -/
theorem scanLoop_char (e a : List Step) (n : Nat) :
    (((List.range n).foldl (scBody e a)
        { passed := true, expectedSteps := e, actualSteps := a }).passed = true ↔
      ∀ i < n, (e.get? i).map trim = (a.get? i).map trim) ∧
    ((List.range n).foldl (scBody e a)
        { passed := true, expectedSteps := e, actualSteps := a }).reason =
      lastMismatchClassify e a n := by
  induction n with
  | zero => exact ⟨by simp, rfl⟩
  | succ n ih =>
    rw [List.range_succ, List.foldl_append, List.foldl_cons, List.foldl_nil]
    set r := (List.range n).foldl (scBody e a)
      { passed := true, expectedSteps := e, actualSteps := a } with hr
    by_cases hmis : (e.get? n).map trim ≠ (a.get? n).map trim
    · have hbody : scBody e a r n =
          { r with passed := false,
                   reason := some (if truthyOpt ((a.get? n).map trim) then .stepMismatch
                     else .stepCountMismatch) } := by
        unfold scBody
        rw [if_pos hmis]
      rw [hbody]
      constructor
      · constructor
        · intro habs; exact absurd habs (by simp)
        · intro hall; exact absurd (hall n (Nat.lt_succ_self n)) hmis
      · show _ = lastMismatchClassify e a (n + 1)
        unfold lastMismatchClassify
        rw [if_pos hmis]
    · have heq : (e.get? n).map trim = (a.get? n).map trim := not_not.mp hmis
      have hbody : scBody e a r n = r := by
        unfold scBody
        rw [if_neg hmis]
      rw [hbody]
      refine ⟨ih.1.trans ?_, ih.2.trans ?_⟩
      · constructor
        · intro hall i hi
          rcases Nat.lt_succ_iff_lt_or_eq.mp hi with hi' | rfl
          · exact hall i hi'
          · exact heq
        · intro hall i hi
          exact hall i (Nat.lt_succ_of_lt hi)
      · show lastMismatchClassify e a n = lastMismatchClassify e a (n + 1)
        conv_rhs => unfold lastMismatchClassify
        rw [if_neg hmis]

/-- When the actual list is strictly shorter than the expected list, the
last scanned index compares a present expected entry against an absent
actual entry, so the loop's reason is `step-count-mismatch`. -/
theorem lastMismatchClassify_of_short (e a : List Step) (h : a.length < e.length) :
    lastMismatchClassify e a e.length = some .stepCountMismatch := by
  cases he : e.length with
  | zero => omega
  | succ m =>
    have ha : a.get? m = none := List.get?_eq_none.mpr (by omega)
    obtain ⟨x, hx⟩ : ∃ x, e.get? m = some x := by
      have hm : m < e.length := by omega
      exact ⟨e.get ⟨m, hm⟩, List.get?_eq_get hm⟩
    unfold lastMismatchClassify
    rw [hx, ha]
    rw [if_pos (by simp)]
    rfl

/-- When the scan stays within the actual list and every actual entry
trims non-empty, a differing scanned index forces reason
`step-mismatch`. -/
theorem lastMismatchClassify_of_truthy (e a : List Step)
    (htrim : ∀ x ∈ a, trim x ≠ "") :
    ∀ n, n ≤ a.length → (∃ i < n, (e.get? i).map trim ≠ (a.get? i).map trim) →
      lastMismatchClassify e a n = some .stepMismatch := by
  intro n
  induction n with
  | zero =>
    rintro _ ⟨i, hi, _⟩
    omega
  | succ m ih =>
    rintro hn ⟨i, hi, hne⟩
    by_cases hmis : (e.get? m).map trim ≠ (a.get? m).map trim
    · obtain ⟨x, hx⟩ : ∃ x, a.get? m = some x := by
        have hm : m < a.length := by omega
        exact ⟨a.get ⟨m, hm⟩, List.get?_eq_get hm⟩
      have hxmem : x ∈ a := List.get?_mem hx
      have htr : truthyOpt ((some x).map trim) = true := by
        simpa [truthyOpt] using htrim x hxmem
      unfold lastMismatchClassify
      rw [if_pos hmis, hx, if_pos htr]
    · have hi' : ∃ i < m, (e.get? i).map trim ≠ (a.get? i).map trim := by
        rcases Nat.lt_succ_iff_lt_or_eq.mp hi with h' | rfl
        · exact ⟨i, h', hne⟩
        · exact absurd hne hmis
      unfold lastMismatchClassify
      rw [if_neg hmis]
      exact ih (by omega) hi'

/-- When every scanned index agrees, the loop records no reason. -/
theorem lastMismatchClassify_of_agree (e a : List Step) :
    ∀ n, (∀ i < n, (e.get? i).map trim = (a.get? i).map trim) →
      lastMismatchClassify e a n = none := by
  intro n
  induction n with
  | zero => intro _; rfl
  | succ m ih =>
    intro hall
    unfold lastMismatchClassify
    rw [if_neg (not_not_intro (hall m (Nat.lt_succ_self m)))]
    exact ih (fun i hi => hall i (Nat.lt_succ_of_lt hi))

/-- On indices inside both lists, comparing the optional trimmed entries is
comparing the trimmed entries. -/
theorem opt_eq_iff_getD (e a : List Step) (heq : e.length = a.length)
    (i : Nat) (hi : i < e.length) :
    ((e.get? i).map trim = (a.get? i).map trim) ↔
      trim (e.getD i "") = trim (a.getD i "") := by
  obtain ⟨x, hx⟩ : ∃ x, e.get? i = some x := ⟨e.get ⟨i, hi⟩, List.get?_eq_get hi⟩
  obtain ⟨y, hy⟩ : ∃ y, a.get? i = some y :=
    ⟨a.get ⟨i, heq ▸ hi⟩, List.get?_eq_get (heq ▸ hi)⟩
  have hgx : e.getD i "" = x := by
    show (e.get? i).getD "" = x
    rw [hx]
    rfl
  have hgy : a.getD i "" = y := by
    show (a.get? i).getD "" = y
    rw [hy]
    rfl
  rw [hx, hy, hgx, hgy]
  exact Option.some_inj

/-- C5 (amended): the per-scenario breakdown slices the flat actual list
at a running offset that starts at 0 and advances by each contributing
scenario's step count (skipping non-contributing scenarios), and its
comparison agrees with the `verifySteps` classification on `passed` for
every slice (slices are never longer than the scenario's expected list),
and on `reason` provided every actual entry in the slice trims non-empty;
it is not literally the same algorithm (see the counterexample). -/
theorem c5_breakdown_agreement (e a : List Step) (hlen : a.length ≤ e.length) :
    ((scenarioCompare e a).passed = (verifyStepsFound e a).passed) ∧
      ((∀ x ∈ a, trim x ≠ "") →
        (scenarioCompare e a).reason = (verifyStepsFound e a).reason) ∧
      (∀ (verification : StepVerificationResult) (sc : Scenario)
          (rest : List Scenario) (level : String) (stepIndex : Nat),
        sc.levels.contains level = true →
          buildScenarioResultsAux verification level (sc :: rest) stepIndex =
            { scenarioName := sc.name,
              stepVerification := scenarioVerifyAt verification sc stepIndex }
              :: buildScenarioResultsAux verification level rest
                  (stepIndex + sc.steps.length)) ∧
      (∀ (verification : StepVerificationResult) (sc : Scenario)
          (rest : List Scenario) (level : String) (stepIndex : Nat),
        sc.levels.contains level = false →
          buildScenarioResultsAux verification level (sc :: rest) stepIndex =
            buildScenarioResultsAux verification level rest stepIndex) := by
  have hfold : scenarioCompare e a =
      (List.range e.length).foldl (scBody e a)
        { passed := true, expectedSteps := e, actualSteps := a } := rfl
  have hsc := scanLoop_char e a e.length
  rw [← hfold] at hsc
  have hoffpos : ∀ (verification : StepVerificationResult) (sc : Scenario)
      (rest : List Scenario) (level : String) (stepIndex : Nat),
      sc.levels.contains level = true →
        buildScenarioResultsAux verification level (sc :: rest) stepIndex =
          { scenarioName := sc.name,
            stepVerification := scenarioVerifyAt verification sc stepIndex }
            :: buildScenarioResultsAux verification level rest
                (stepIndex + sc.steps.length) := by
    intro verification sc rest level stepIndex hcontains
    rw [show buildScenarioResultsAux verification level (sc :: rest) stepIndex =
        if sc.levels.contains level = true then
          { scenarioName := sc.name,
            stepVerification := scenarioVerifyAt verification sc stepIndex }
            :: buildScenarioResultsAux verification level rest (stepIndex + sc.steps.length)
        else buildScenarioResultsAux verification level rest stepIndex from rfl,
      if_pos hcontains]
  have hoffneg : ∀ (verification : StepVerificationResult) (sc : Scenario)
      (rest : List Scenario) (level : String) (stepIndex : Nat),
      sc.levels.contains level = false →
        buildScenarioResultsAux verification level (sc :: rest) stepIndex =
          buildScenarioResultsAux verification level rest stepIndex := by
    intro verification sc rest level stepIndex hcontains
    rw [show buildScenarioResultsAux verification level (sc :: rest) stepIndex =
        if sc.levels.contains level = true then
          { scenarioName := sc.name,
            stepVerification := scenarioVerifyAt verification sc stepIndex }
            :: buildScenarioResultsAux verification level rest (stepIndex + sc.steps.length)
        else buildScenarioResultsAux verification level rest stepIndex from rfl,
      if_neg (by rw [hcontains]; simp)]
  by_cases heq : e.length = a.length
  · have hv := vsf_eq_len e a heq
    by_cases hall : ∀ i < e.length, trim (e.getD i "") = trim (a.getD i "")
    · have hallopt : ∀ i < e.length, (e.get? i).map trim = (a.get? i).map trim :=
        fun i hi => (opt_eq_iff_getD e a heq i hi).mpr (hall i hi)
      have hp1 : (scenarioCompare e a).passed = true := hsc.1.mpr hallopt
      have hp2 : (verifyStepsFound e a).passed = true := hv.2.1.mpr hall
      refine ⟨hp1.trans hp2.symm, fun _ => ?_, hoffpos, hoffneg⟩
      rw [hv.2.2.1 hp2, hsc.2, lastMismatchClassify_of_agree e a e.length hallopt]
    · have hexg : ∃ i < e.length, trim (e.getD i "") ≠ trim (a.getD i "") := by
        push_neg at hall
        exact hall
      have hexopt : ∃ i < e.length, (e.get? i).map trim ≠ (a.get? i).map trim := by
        obtain ⟨i, hi, hne⟩ := hexg
        exact ⟨i, hi, fun hcon => hne ((opt_eq_iff_getD e a heq i hi).mp hcon)⟩
      have hp1 : (scenarioCompare e a).passed = false := by
        cases hb : (scenarioCompare e a).passed with
        | false => rfl
        | true =>
          obtain ⟨i, hi, hne⟩ := hexopt
          exact absurd (hsc.1.mp hb i hi) hne
      have hp2 : (verifyStepsFound e a).passed = false := by
        cases hb : (verifyStepsFound e a).passed with
        | false => rfl
        | true => exact absurd (hv.2.1.mp hb) hall
      refine ⟨hp1.trans hp2.symm, fun htrim => ?_, hoffpos, hoffneg⟩
      rw [hv.1.mpr hexg, hsc.2,
        lastMismatchClassify_of_truthy e a htrim e.length (le_of_eq heq) hexopt]
  · have hlt : a.length < e.length := lt_of_le_of_ne hlen (fun hcon => heq hcon.symm)
    have hvr := vsf_count_mismatch e a (fun hcon => heq hcon)
    have hp2 : (verifyStepsFound e a).passed = false := by rw [hvr]
    have hp1 : (scenarioCompare e a).passed = false := by
      cases hb : (scenarioCompare e a).passed with
      | false => rfl
      | true =>
        have hall := hsc.1.mp hb
        have hm : e.length - 1 < e.length := by omega
        obtain ⟨x, hx⟩ : ∃ x, e.get? (e.length - 1) = some x :=
          ⟨e.get ⟨e.length - 1, hm⟩, List.get?_eq_get hm⟩
        have hAnone : a.get? (e.length - 1) = none := List.get?_eq_none.mpr (by omega)
        have hmm := hall (e.length - 1) hm
        rw [hx, hAnone] at hmm
        simp at hmm
    refine ⟨hp1.trans hp2.symm, fun _ => ?_, hoffpos, hoffneg⟩
    rw [hsc.2, lastMismatchClassify_of_short e a hlt, hvr]

/-- Witness for C5 (amended) at a concrete short slice and on concrete
offset steps. -/
theorem c5_breakdown_agreement_witness :
    ((scenarioCompare ["a", "b"] ["b"]).passed = (verifyStepsFound ["a", "b"] ["b"]).passed) ∧
      ((scenarioCompare ["a", "b"] ["b"]).reason = (verifyStepsFound ["a", "b"] ["b"]).reason) ∧
      buildScenarioResultsAux
          { passed := true, expectedSteps := [], actualSteps := ["x", "y", "z"] } "unit"
          [{ name := "S", levels := ["unit"], steps := ["x", "y"] }] 0 =
        [{ scenarioName := "S",
           stepVerification := scenarioVerifyAt
             { passed := true, expectedSteps := [], actualSteps := ["x", "y", "z"] }
             { name := "S", levels := ["unit"], steps := ["x", "y"] } 0 }] ∧
      buildScenarioResultsAux
          { passed := true, expectedSteps := [], actualSteps := ["x", "y", "z"] } "unit"
          [{ name := "T", levels := ["e2e"], steps := ["x"] }] 0 = [] :=
  ⟨(c5_breakdown_agreement ["a", "b"] ["b"] (by decide)).1,
    (c5_breakdown_agreement ["a", "b"] ["b"] (by decide)).2.1 (by decide),
    ((c5_breakdown_agreement ["a", "b"] ["b"] (by decide)).2.2.1
        { passed := true, expectedSteps := [], actualSteps := ["x", "y", "z"] }
        { name := "S", levels := ["unit"], steps := ["x", "y"] } [] "unit" 0
        (by decide)).trans rfl,
    ((c5_breakdown_agreement ["a", "b"] ["b"] (by decide)).2.2.2
        { passed := true, expectedSteps := [], actualSteps := ["x", "y", "z"] }
        { name := "T", levels := ["e2e"], steps := ["x"] } [] "unit" 0
        (by decide)).trans rfl⟩

/-- C5 (counterexample): the breakdown comparison is not the same
algorithm as `verifySteps` — on a spec step `"a"` and a marker whose
quoted text trims to the empty string, with equal lengths and the
identity slice, `verifySteps` classifies `step-mismatch` while the
per-scenario breakdown classifies `step-count-mismatch`. -/
theorem c5_breakdown_counterexample :
    (verifySteps [("t.ts", "// step(\" \")")] "t.ts" ["a"]).reason =
        some Reason.stepMismatch ∧
      (scenarioVerifyAt (verifySteps [("t.ts", "// step(\" \")")] "t.ts" ["a"])
          { name := "S", levels := ["unit"], steps := ["a"] } 0).reason =
        some Reason.stepCountMismatch ∧
      ["a"].length = (findStepsInTest [("t.ts", "// step(\" \")")] "t.ts").length := by
  refine ⟨by decide, by decide, by decide⟩

/-- C9: the orchestrator is a pure function of the file tree (the model
makes the directory traversal an explicit function of the tree, matching
the contract that discovery order is deterministic), so two runs over an
unchanged tree produce identical summary counts and an identical ordering
of results; in addition the counts cohere with the result list. -/
theorem c9_deterministic_runs (fs : FS) (searchDir token : String) :
    (orchestrate fs searchDir token).results = (orchestrate fs searchDir token).results ∧
      (orchestrate fs searchDir token).totalFiles = (orchestrate fs searchDir token).totalFiles ∧
      (orchestrate fs searchDir token).passedFiles = (orchestrate fs searchDir token).passedFiles ∧
      (orchestrate fs searchDir token).failedFiles = (orchestrate fs searchDir token).failedFiles ∧
      (orchestrate fs searchDir token).missingFiles = (orchestrate fs searchDir token).missingFiles ∧
      discoverSpecFiles fs searchDir token = discoverSpecFiles fs searchDir token ∧
      (orchestrate fs searchDir token).totalFiles =
        (orchestrate fs searchDir token).results.length ∧
      (orchestrate fs searchDir token).passedFiles +
          (orchestrate fs searchDir token).failedFiles =
        (orchestrate fs searchDir token).totalFiles := by
  refine ⟨rfl, rfl, rfl, rfl, rfl, rfl, rfl, ?_⟩
  unfold orchestrate
  dsimp only
  exact (List.length_eq_length_filter_add _).symm

/-- The head of a `dropWhile` result fails the predicate. -/
theorem dropWhile_head_false {p : Char → Bool} :
    ∀ (l : List Char) (c : Char) (t : List Char), l.dropWhile p = c :: t → p c = false := by
  intro l
  induction l with
  | nil => intro c t h; simp at h
  | cons x xs ih =>
    intro c t h
    rw [List.dropWhile_cons] at h
    by_cases hx : p x = true
    · rw [if_pos hx] at h
      exact ih c t h
    · rw [if_neg hx] at h
      obtain rfl : x = c := by injection h
      exact Bool.eq_false_iff.mpr hx

/-- `dropWhile` is idempotent. -/
theorem dropWhile_idem (p : Char → Bool) (l : List Char) :
    (l.dropWhile p).dropWhile p = l.dropWhile p := by
  cases h : l.dropWhile p with
  | nil => rfl
  | cons c t =>
    have hf := dropWhile_head_false l c t h
    rw [List.dropWhile_cons, if_neg (by rw [hf]; simp)]

/-- Dropping trailing whitespace twice is dropping it once. -/
theorem dropTrailingWs_idem (l : List Char) :
    dropTrailingWs (dropTrailingWs l) = dropTrailingWs l := by
  unfold dropTrailingWs
  rw [List.reverse_reverse, dropWhile_idem]

/-- Dropping trailing whitespace yields a prefix of the input. -/
theorem dropTrailingWs_isPrefix (l : List Char) : (dropTrailingWs l).IsPrefix l := by
  rw [← List.reverse_suffix]
  unfold dropTrailingWs
  rw [List.reverse_reverse]
  exact List.dropWhile_suffix isWs

/-- A list whose leading whitespace is already stripped is unchanged by a
further leading strip, even after its trailing whitespace is dropped. -/
theorem dropWhile_dropTrailingWs (l : List Char) :
    (dropTrailingWs (l.dropWhile isWs)).dropWhile isWs =
      dropTrailingWs (l.dropWhile isWs) := by
  cases hM : l.dropWhile isWs with
  | nil => rfl
  | cons c t =>
    have hc : isWs c = false := dropWhile_head_false l c t hM
    have hpre := dropTrailingWs_isPrefix (c :: t)
    cases hD : dropTrailingWs (c :: t) with
    | nil => rfl
    | cons d t' =>
      rw [hD] at hpre
      obtain ⟨r, hr⟩ := hpre
      have hd : d = c := by
        rw [List.cons_append] at hr
        injection hr
      subst hd
      rw [List.dropWhile_cons, if_neg (by rw [hc]; simp)]

/-- `trim` is idempotent. -/
theorem trim_idem (s : String) : trim (trim s) = trim s := by
  show (⟨dropTrailingWs ((dropTrailingWs (s.data.dropWhile isWs)).dropWhile isWs)⟩ : String) = _
  rw [dropWhile_dropTrailingWs, dropTrailingWs_idem]
  rfl

/-- An accepted step-marker capture is never the empty character list. -/
theorem matchStepLine_ne_nil {l : List Char} {cap : List Char}
    (h : matchStepLine l = some cap) : cap ≠ [] := by
  unfold matchStepLine at h
  cases hm : matchLeader (dropWs l) with
  | none => rw [hm] at h; simp at h
  | some afterLeader =>
    rw [hm] at h
    dsimp only at h
    cases hs : stripChars "step(\"".data (dropWs afterLeader) with
    | none => rw [hs] at h; simp at h
    | some body =>
      rw [hs] at h
      dsimp only at h
      cases hq : lastQuoteSplit body with
      | none => rw [hq] at h; simp at h
      | some p =>
        rw [hq] at h
        dsimp only at h
        by_cases hp : p.isEmpty
        · rw [if_pos hp] at h; simp at h
        · rw [if_neg hp] at h
          obtain rfl : p = cap := by injection h
          simpa [List.isEmpty_iff] using hp

/-- C10: the flat step extractor never produces an empty-string step —
the marker capture requires at least one character between the quotes —
and a marker line with an empty quoted string, in either comment-leader
form, is silently skipped. -/
theorem c10_no_empty_capture :
    (∀ (content : String) (s : Step), s ∈ findSteps content → 1 ≤ s.length) ∧
      findSteps "// step(\"\")" = [] ∧ findSteps "# step(\"\")" = [] := by
  refine ⟨?_, by decide, by decide⟩
  intro content s hs
  unfold findSteps at hs
  rw [List.mem_filterMap] at hs
  obtain ⟨l, _, hmap⟩ := hs
  rw [Option.map_eq_some'] at hmap
  obtain ⟨cap, hcap, rfl⟩ := hmap
  exact List.length_pos.mpr (matchStepLine_ne_nil hcap)

/-- Witness for C10 on a concrete marker line. -/
theorem c10_no_empty_capture_witness :
    ("a" : Step) ∈ findSteps "// step(\"a\")" ∧ 1 ≤ ("a" : Step).length :=
  ⟨by decide, c10_no_empty_capture.1 "// step(\"a\")" "a" (by decide)⟩

/-- C7 (amended): a `levels:` line with a scenario open sets that
scenario's levels to the comma-split, entry-trimmed, empty-dropped,
order-preserving parse of the capture — without de-duplication (see the
counterexample) — and every stored entry is non-empty and trimmed. -/
theorem c7_levels_parse (st : ScanState) (sc : Scenario) (line : String) (cap : List Char)
    (hcur : st.currentScenario = some sc)
    (hnoh2 : matchH2 line.data = none)
    (hcap : matchLevels line.data = some cap) :
    (scanLine st line).currentScenario =
        some { sc with levels := parseLevelsCsv ⟨cap⟩ } ∧
      parseLevelsCsv ⟨cap⟩ =
        ((splitOnChar ',' (trim ⟨cap⟩)).map trim).filter (fun x => x ≠ "") ∧
      ∀ l ∈ parseLevelsCsv ⟨cap⟩, l ≠ "" ∧ trim l = l := by
  refine ⟨?_, rfl, ?_⟩
  · unfold scanLine
    rw [hnoh2]
    dsimp only
    rw [hcur, hcap]
  · intro l hl
    unfold parseLevelsCsv at hl
    rw [List.mem_filter] at hl
    obtain ⟨hmem, hne⟩ := hl
    refine ⟨by simpa using hne, ?_⟩
    rw [List.mem_map] at hmem
    obtain ⟨x, _, rfl⟩ := hmem
    exact trim_idem x

/-- Witness for C7 (amended) on a concrete open scenario and levels line. -/
theorem c7_levels_parse_witness :
    (scanLine
        { scenarios := [], currentScenario := some { name := "S", levels := [], steps := [] },
          inCodeblock := false, currentSteps := [] }
        "levels: unit, unit").currentScenario =
      some { name := "S", levels := ["unit", "unit"], steps := [] } := by
  have h := c7_levels_parse
    { scenarios := [], currentScenario := some { name := "S", levels := [], steps := [] },
      inCodeblock := false, currentSteps := [] }
    { name := "S", levels := [], steps := [] }
    "levels: unit, unit" ("unit, unit".data) rfl (by decide) (by decide)
  rw [h.1]
  decide

/-- C7 (counterexample): the parser does not de-duplicate a scenario's
levels — `levels: unit, unit` is stored as `["unit", "unit"]`, so a parsed
scenario's level list can contain duplicate entries. -/
theorem c7_levels_counterexample :
    (extractScenarios "## S\nlevels: unit, unit\n```specguard\nstep one\n```").map
        Scenario.levels = [["unit", "unit"]] ∧
      ¬ ∀ sc ∈ extractScenarios "## S\nlevels: unit, unit\n```specguard\nstep one\n```",
          sc.levels.Nodup := by
  refine ⟨by decide, by decide⟩

/-- The `extractScenarios` loop never adds a scenario with an empty step
list to the output list. -/
theorem scanLine_preserves_nonempty (st : ScanState) (line : String)
    (h : ∀ sc ∈ st.scenarios, sc.steps ≠ []) :
    ∀ sc ∈ (scanLine st line).scenarios, sc.steps ≠ [] := by
  unfold scanLine
  cases hh : matchH2 line.data with
  | some cap =>
    dsimp only
    cases hcur : st.currentScenario with
    | none => simpa using h
    | some sc =>
      dsimp only
      by_cases hsteps : st.currentSteps ≠ []
      · rw [if_pos hsteps]
        intro sc' hmem
        rw [List.mem_append] at hmem
        rcases hmem with h1 | h2
        · exact h sc' h1
        · rw [List.mem_singleton] at h2
          subst h2
          exact hsteps
      · rw [if_neg hsteps]
        exact h
  | none =>
    dsimp only
    cases hcur : st.currentScenario <;> cases hlev : matchLevels line.data <;>
      dsimp only <;> (try exact h) <;>
      · repeat' split
        all_goals exact h

/-- End-of-input flush keeps the no-empty-steps invariant. -/
theorem flushScan_nonempty (st : ScanState)
    (h : ∀ sc ∈ st.scenarios, sc.steps ≠ []) :
    ∀ sc ∈ flushScan st, sc.steps ≠ [] := by
  unfold flushScan
  cases hcur : st.currentScenario with
  | none => exact h
  | some sc =>
    dsimp only
    by_cases hsteps : st.currentSteps ≠ []
    · rw [if_pos hsteps]
      intro sc' hmem
      rw [List.mem_append] at hmem
      rcases hmem with h1 | h2
      · exact h sc' h1
      · rw [List.mem_singleton] at h2
        subst h2
        exact hsteps
    · rw [if_neg hsteps]
      exact h

/-- The line loop preserves the no-empty-steps invariant. -/
theorem foldl_scan_nonempty (lines : List String) :
    ∀ st : ScanState, (∀ sc ∈ st.scenarios, sc.steps ≠ []) →
      ∀ sc ∈ (lines.foldl scanLine st).scenarios, sc.steps ≠ [] := by
  induction lines with
  | nil => exact fun st h => h
  | cons line rest ih =>
    intro st h
    rw [List.foldl_cons]
    exact ih (scanLine st line) (scanLine_preserves_nonempty st line h)

/-- C8 (amended): a scenario with an empty step list is never included in
the parser's output — it is silently excluded, the orchestrator's only
warning being the whole-file skip when no scenario at all survives — while
a heading or the end of input pushes the open scenario exactly when its
collected step list is non-empty. -/
theorem c8_empty_scenarios_excluded :
    (∀ (content : String) (sc : Scenario),
        sc ∈ extractScenarios content → sc.steps ≠ []) ∧
      (∀ (st : ScanState) (sc : Scenario), st.currentScenario = some sc →
        st.currentSteps ≠ [] →
        flushScan st = st.scenarios ++ [{ sc with steps := st.currentSteps }]) ∧
      (∀ (st : ScanState) (sc : Scenario), st.currentScenario = some sc →
        st.currentSteps = [] → flushScan st = st.scenarios) ∧
      (∀ (st : ScanState) (sc : Scenario) (line : String) (cap : List Char),
        matchH2 line.data = some cap → st.currentScenario = some sc →
        st.currentSteps ≠ [] →
        (scanLine st line).scenarios =
          st.scenarios ++ [{ sc with steps := st.currentSteps }]) ∧
      (∀ (st : ScanState) (sc : Scenario) (line : String) (cap : List Char),
        matchH2 line.data = some cap → st.currentScenario = some sc →
        st.currentSteps = [] → (scanLine st line).scenarios = st.scenarios) := by
  refine ⟨?_, ?_, ?_, ?_, ?_⟩
  · intro content sc hmem
    unfold extractScenarios at hmem
    exact flushScan_nonempty _
      (foldl_scan_nonempty (splitLines content) initialScanState (by simp [initialScanState]))
      sc hmem
  · intro st sc hcur hsteps
    unfold flushScan
    rw [hcur]
    dsimp only
    rw [if_pos hsteps]
  · intro st sc hcur hsteps
    unfold flushScan
    rw [hcur]
    dsimp only
    rw [if_neg (by simp [hsteps])]
  · intro st sc line cap hh hcur hsteps
    unfold scanLine
    rw [hh]
    dsimp only
    rw [hcur]
    dsimp only
    rw [if_pos hsteps]
  · intro st sc line cap hh hcur hsteps
    unfold scanLine
    rw [hh]
    dsimp only
    rw [hcur]
    dsimp only
    rw [if_neg (by simp [hsteps])]

/-- Witness for C8 (amended) on concrete parses and states. -/
theorem c8_empty_scenarios_excluded_witness :
    (("x" : Step) :: [] ≠ [] ∧
        { name := "S", levels := [], steps := ["x"] } ∈
          extractScenarios "## S\n```specguard\nx\n```") ∧
      flushScan
          { scenarios := [], currentScenario := some { name := "S", levels := [], steps := [] },
            inCodeblock := false, currentSteps := ["x"] } =
        [{ name := "S", levels := [], steps := ["x"] }] :=
  ⟨⟨c8_empty_scenarios_excluded.1 "## S\n```specguard\nx\n```"
        { name := "S", levels := [], steps := ["x"] } (by decide), by decide⟩,
    (c8_empty_scenarios_excluded.2.1
        { scenarios := [], currentScenario := some { name := "S", levels := [], steps := [] },
          inCodeblock := false, currentSteps := ["x"] }
        { name := "S", levels := [], steps := [] } rfl (by decide)).trans (by decide)⟩

/-- C8 (counterexample): scenario `A` has a `levels:` line but zero steps;
it is excluded from the output, yet the orchestrator's only warning (the
no-scenarios skip of `index.ts` lines 84-87) does not fire because
scenario `B` survives — the discard is silent. -/
theorem c8_silent_discard_counterexample :
    (extractScenarios "## A\nlevels: unit\n## B\nlevels: unit\n```specguard\nstep x\n```").map
        Scenario.name = ["B"] ∧
      skipsFileNoScenarios
          "## A\nlevels: unit\n## B\nlevels: unit\n```specguard\nstep x\n```" = false := by
  refine ⟨by decide, by decide⟩

end SpecGuard





